import Mathlib

/-!
Verification of `graphMaker.py`: a shallow embedding in Lean 4 of the
dependency-graph tool, together with proofs about its components.

Package names are `String`s.  Python `dict`s (which preserve insertion
order) are embedded as association lists `List (String × List String)`;
`dictInsert` is the embedding of `d[k] = v` and `lookupG` of `d.get(k, [])`
(respectively of reading a `defaultdict(list)`).

The BFS loop of `get_all_dependencies_bfs` is embedded with explicit fuel
(`bfsFuel`), one unit per iteration of the Python `while queue:` loop;
`queueMeasure` is a bound on the number of remaining iterations, proved
sufficient below, which makes the top-level builder total.
-/

/-- The per-package direct-dependency lookup (`parse_apk_index` viewed as a
pure function of the index contents). -/
def Lookup : Type := String → List String

/-- Python `pat in hay` on a list of characters: `pat` occurs contiguously. -/
def containsSubAux (pat : List Char) : List Char → Bool
  | [] => pat.isEmpty
  | c :: t => pat.isPrefixOf (c :: t) || containsSubAux pat t

/-- Python substring test `pat in hay` on strings. -/
def containsSub (hay pat : String) : Bool :=
  containsSubAux pat.data hay.data

/-- Python dict assignment `d[k] = v`: replace the value at the first
occurrence of `k`, else append a new binding at the end. -/
def dictInsert (m : List (String × List String)) (k : String) (v : List String) :
    List (String × List String) :=
  match m with
  | [] => [(k, v)]
  | (a, b) :: t => if a = k then (k, v) :: t else (a, b) :: dictInsert t k v

/-- Python `d.get(k, [])` (also the read behaviour of `defaultdict(list)`). -/
def lookupG (m : List (String × List String)) (k : String) : List String :=
  match m with
  | [] => []
  | (a, b) :: t => if a = k then b else lookupG t k

/-- The keys of an embedded dict, in insertion order. -/
def keysOf (m : List (String × List String)) : List String :=
  m.map Prod.fst

/-- One iteration of the `while queue:` loop of `get_all_dependencies_bfs`
per unit of fuel.  `none` means the fuel ran out before the queue emptied. -/
def bfsFuel (lookup : Lookup) (maxD : Nat) (filt : String) :
    Nat → List (String × Nat) → List String → List (String × List String) →
    Option (List (String × List String))
  | _, [], _, graph => some graph
  | 0, _ :: _, _, _ => none
  | n + 1, (pkg, depth) :: rest, visited, graph =>
    if maxD < depth then
      bfsFuel lookup maxD filt n rest visited graph
    else if pkg ∈ visited then
      bfsFuel lookup maxD filt n rest visited graph
    else
      let visited2 := pkg :: visited
      if filt ≠ "" ∧ containsSub pkg filt = true then
        bfsFuel lookup maxD filt n rest visited2 graph
      else
        let deps := lookup pkg
        let graph2 := dictInsert graph pkg deps
        if depth < maxD then
          bfsFuel lookup maxD filt n
            (rest ++ (deps.filter (fun d => !decide (d ∈ visited2))).map (fun d => (d, depth + 1)))
            visited2 graph2
        else
          bfsFuel lookup maxD filt n rest visited2 graph2

/-- Upper bound on the number of loop iterations a queue entry at remaining
depth budget `k` can cause. -/
def work (lookup : Lookup) : Nat → String → Nat
  | 0, _ => 1
  | k + 1, p => 1 + ((lookup p).map (work lookup k)).sum

/-- Upper bound on the number of remaining loop iterations for a queue. -/
def queueMeasure (lookup : Lookup) (maxD : Nat) (queue : List (String × Nat)) : Nat :=
  (queue.map (fun pd => work lookup (maxD - pd.2) pd.1)).sum

/-- `get_all_dependencies_bfs` from the source: run the loop from the seeded
queue `[(root, 0)]`, with fuel proved sufficient below. -/
def get_all_dependencies_bfs (lookup : Lookup) (root : String) (maxD : Nat)
    (filt : String) : List (String × List String) :=
  (bfsFuel lookup maxD filt (queueMeasure lookup maxD [(root, 0)]) [(root, 0)] [] []).getD []

/-- Scenario lookup `A→[B,C]`, `B→[C]`, `C→[]`. -/
def lookupABC : Lookup :=
  fun s => if s = "A" then ["B", "C"] else if s = "B" then ["C"] else []

/-- Cyclic scenario lookup `A→[B]`, `B→[A]`. -/
def lookupAB : Lookup :=
  fun s => if s = "A" then ["B"] else if s = "B" then ["A"] else []

/-- `ReachN lookup root p n`: there is a path of exactly `n` edges from
`root` to `p` through lookup-returned dependencies. -/
inductive ReachN (lookup : Lookup) (root : String) : String → Nat → Prop
  | refl : ReachN lookup root root 0
  | step {b c : String} {n : Nat} :
      ReachN lookup root b n → c ∈ lookup b → ReachN lookup root c (n + 1)

/-- Python `reverse_graph[d].append(pkg)` on a `defaultdict(list)`: append
`pkg` to the list of the first binding of `d`, creating an empty-then-
appended binding at the end when `d` has none. -/
def revAppend (rg : List (String × List String)) (d pkg : String) :
    List (String × List String) :=
  match rg with
  | [] => [(d, [pkg])]
  | (k, l) :: t => if k = d then (k, l ++ [pkg]) :: t else (k, l) :: revAppend t d pkg

/-- `get_reverse_dependencies` from the source. -/
def get_reverse_dependencies (graph : List (String × List String)) :
    List (String × List String) :=
  graph.foldl (fun rg pd => pd.2.foldl (fun rg2 d => revAppend rg2 d pd.1) rg) []

/-! Python string primitives used by `parse_apk_index`, embedded at the
`List Char` level so that they compute inside the kernel. -/

/-- Python `str.strip()` on a character list. -/
def stripChars (l : List Char) : List Char :=
  ((l.dropWhile Char.isWhitespace).reverse.dropWhile Char.isWhitespace).reverse

/-- Python `str.strip()`. -/
def pyStrip (s : String) : String := ⟨stripChars s.data⟩

/-- Python `str.split(":")` on a character list. -/
def splitColonAux : List Char → List Char → List (List Char)
  | [], acc => [acc.reverse]
  | x :: t, acc =>
    if x = ':' then acc.reverse :: splitColonAux t [] else splitColonAux t (x :: acc)

/-- Python `str.split(":")`. -/
def pySplitColon (s : String) : List String := (splitColonAux s.data []).map (fun l => ⟨l⟩)

/-- Python no-argument `str.split()` on a character list: maximal runs of
non-whitespace characters. -/
def wsWords : List Char → List Char → List (List Char)
  | [], [] => []
  | [], acc => [acc.reverse]
  | x :: t, acc =>
    if x.isWhitespace then
      (if acc.isEmpty then wsWords t [] else acc.reverse :: wsWords t [])
    else wsWords t (x :: acc)

/-- Python no-argument `str.split()`. -/
def pySplitWs (s : String) : List String := (wsWords s.data []).map (fun l => ⟨l⟩)

/-- One iteration of the test-mode line loop of `parse_apk_index`: skip
lines without `:`, split the stripped line at `:` (a line with several `:`
makes the Python tuple unpacking raise `ValueError`), and store the entry. -/
def parseIndexLine (m : List (String × List String)) (line : String) :
    Except String (List (String × List String)) :=
  if ':' ∈ line.data then
    match pySplitColon (pyStrip line) with
    | [pkg, deps] =>
      let pkg2 := pyStrip pkg
      let deps2 := if (pyStrip deps).isEmpty then [] else pySplitWs (pyStrip deps)
      Except.ok (dictInsert m pkg2 deps2)
    | _ => Except.error "ValueError: too many values to unpack"
  else Except.ok m

/-- The `dep_map` built by the test-mode branch of `parse_apk_index`. -/
def buildDepMap (lines : List String) : Except String (List (String × List String)) :=
  lines.foldlM parseIndexLine []

/-- Test-mode `parse_apk_index`: `dep_map.get(package_name, [])`. -/
def parse_apk_index_test (lines : List String) (package_name : String) :
    Except String (List String) :=
  (buildDepMap lines).map (fun m => lookupG m package_name)

/-! The Graph Description Exporter (`generate_dot`) and the renderers. -/

/-- One directed-edge statement: `    "pkg" -> "dep";`. -/
def dotEdgeLine (pkg dep : String) : String :=
  "    \"" ++ pkg ++ "\" -> \"" ++ dep ++ "\";"

/-- One isolated-node statement: `    "pkg";`. -/
def dotNodeLine (pkg : String) : String :=
  "    \"" ++ pkg ++ "\";"

/-- `generate_dot` from the source: header, per-entry statements built by
the loop, footer, joined by newlines. -/
def generate_dot (graph : List (String × List String)) : String :=
  let lines := graph.foldl
    (fun ls pd =>
      let ls2 := ls ++ pd.2.map (fun dep => dotEdgeLine pd.1 dep)
      if pd.2.isEmpty then ls2 ++ [dotNodeLine pd.1] else ls2)
    ["digraph G \x7b"]
  String.intercalate "\n" (lines ++ ["\x7d"])

/-- The recursive calls made by the loop of `print_ascii_tree`: each child
with its extended prefix, the last child getting the distinct glyph. -/
def childArgs (pre : String) (deps : List String) : List (String × String) :=
  deps.enum.map (fun p =>
    if p.1 = deps.length - 1 then (p.2, pre ++ "   " ++ "└─ ")
    else (p.2, pre ++ "│  " ++ "├─ "))

mutual

/-- `print_ascii_tree` with the recursion depth made explicit (Python
bounds it by the interpreter recursion limit): emit the node line, then
the lines of each child in `graph.get(root, [])`.  `none` means the walk
exceeded the depth budget — in CPython, a `RecursionError`. -/
def print_ascii_tree_fuel (graph : List (String × List String)) :
    Nat → String → String → Option (List String)
  | 0, _, _ => none
  | n + 1, root, pre =>
    match print_ascii_tree_children graph n (childArgs pre (lookupG graph root)) with
    | none => none
    | some rs => some ((pre ++ root) :: rs)
termination_by n _root _pre => (n, 0)

/-- The child loop of `print_ascii_tree`: run the recursive calls in order,
concatenating their output; fail if any child fails. -/
def print_ascii_tree_children (graph : List (String × List String)) :
    Nat → List (String × String) → Option (List String)
  | _, [] => some []
  | n, a :: t =>
    match print_ascii_tree_fuel graph n a.1 a.2, print_ascii_tree_children graph n t with
    | some r, some rs => some (r ++ rs)
    | _, _ => none
termination_by n l => (n, l.length + 1)

end

/-! `save_graph_svg` and `main`.  The external invocation of `dot` is
represented by its observable outcome; `save_graph_svg` catches both of
its failure modes itself and only prints a message, so its embedding is a
total function returning the printed lines. -/

/-- Outcome of running the external `dot` layout tool. -/
inductive RenderOutcome
  | success
  | toolMissing
  | toolError (msg : String)

/-- The output file name chosen by `save_graph_svg`. -/
def svgFileName (output_file : String) : String :=
  if (".svg".data).isSuffixOf output_file.data then output_file else output_file ++ ".svg"

/-- `save_graph_svg` from the source: `FileNotFoundError` (tool absent) and
`CalledProcessError` (tool exited non-zero) are caught and reported; no
exception escapes. -/
def save_graph_svg (outcome : RenderOutcome) (_dot_str : String) (output_file : String) :
    List String :=
  match outcome with
  | .success => ["Граф сохранен в " ++ svgFileName output_file]
  | .toolMissing => ["Ошибка: Graphviz не установлен или не найден \x27dot\x27"]
  | .toolError msg => ["Ошибка при генерации SVG: " ++ msg]

/-- The configuration surface read by `main` (after `validate_config`). -/
structure Config where
  package_name : String
  repo_mode : String
  repo_path : String
  output_file : String
  ascii_mode : Bool
  max_depth : Nat
  filter_substring : String

/-- The body of `main` after the banner printing, over the outcomes of its
collaborators: `cfgRes` is config loading + validation, `idxRes` is index
acquisition + parsing into a dependency map (a `LookupError` when the
backing source is unreadable), `render` the external tool outcome, and
`recLimit` the interpreter recursion limit governing `print_ascii_tree`.
`Except.error` means an exception reaches the handler in `main`. -/
def mainRun (recLimit : Nat) (cfgRes : Except String Config)
    (idxRes : Except String (List (String × List String))) (render : RenderOutcome) :
    Except String (List String) := do
  let cfg ← cfgRes
  let dmap ← idxRes
  let graph := get_all_dependencies_bfs (fun p => lookupG dmap p)
    cfg.package_name cfg.max_depth cfg.filter_substring
  let dotStr := generate_dot graph
  let saveMsgs := save_graph_svg render dotStr cfg.output_file
  if cfg.ascii_mode then
    match print_ascii_tree_fuel graph recLimit cfg.package_name "" with
    | none => Except.error "RecursionError: maximum recursion depth exceeded"
    | some treeLines => pure (saveMsgs ++ treeLines)
  else
    pure saveMsgs

/-- The exit status of `main`: `sys.exit(1)` from the `except` handler on any
escaped exception, normal exit (status 0) otherwise. -/
def mainExitCode (recLimit : Nat) (cfgRes : Except String Config)
    (idxRes : Except String (List (String × List String))) (render : RenderOutcome) : Nat :=
  match mainRun recLimit cfgRes idxRes render with
  | .error _ => 1
  | .ok _ => 0

/-- A concrete valid configuration for counterexamples. -/
def cfgEx : Config :=
  { package_name := "A", repo_mode := "test", repo_path := "fixture.txt",
    output_file := "out", ascii_mode := false, max_depth := 2, filter_substring := "" }

/-- A concrete dependency map for counterexamples. -/
def dmapEx : List (String × List String) := [("A", ["B"]), ("B", [])]

example : get_all_dependencies_bfs lookupABC "A" 2 "" =
    [("A", ["B", "C"]), ("B", ["C"]), ("C", [])] := by decide

example : get_all_dependencies_bfs lookupABC "A" 0 "" = [("A", ["B", "C"])] := by decide

example : get_all_dependencies_bfs lookupABC "A" 2 "C" =
    [("A", ["B", "C"]), ("B", ["C"])] := by decide

example : get_all_dependencies_bfs lookupAB "A" 5 "" =
    [("A", ["B"]), ("B", ["A"])] := by decide

/-! ### Termination of the BFS loop: `queueMeasure` is sufficient fuel. -/

theorem work_pos (lookup : Lookup) (k : Nat) (p : String) : 1 ≤ work lookup k p := by
  cases k <;> simp [work]

theorem sum_map_filter_le {α : Type} (f : α → Nat) (p : α → Bool) :
    ∀ l : List α, ((l.filter p).map f).sum ≤ (l.map f).sum := by
  intro l
  induction l with
  | nil => simp
  | cons a t ih =>
    by_cases h : p a = true
    · simpa [List.filter_cons, h] using Nat.add_le_add_left ih (f a)
    · simp only [List.filter_cons, h, if_neg, Bool.false_eq_true, if_false, List.map_cons,
        List.sum_cons]
      exact le_trans ih (Nat.le_add_left _ _)

theorem queueMeasure_cons (lookup : Lookup) (maxD : Nat) (pd : String × Nat)
    (rest : List (String × Nat)) :
    queueMeasure lookup maxD (pd :: rest) =
      work lookup (maxD - pd.2) pd.1 + queueMeasure lookup maxD rest := by
  simp [queueMeasure]

theorem queueMeasure_append (lookup : Lookup) (maxD : Nat)
    (q1 q2 : List (String × Nat)) :
    queueMeasure lookup maxD (q1 ++ q2) =
      queueMeasure lookup maxD q1 + queueMeasure lookup maxD q2 := by
  simp [queueMeasure]

/-- The measure of the children enqueued when expanding `pkg` at depth
`depth < maxD` is strictly below the work budget of `pkg` itself. -/
theorem children_measure_lt (lookup : Lookup) (maxD : Nat) (pkg : String)
    (depth : Nat) (hd : depth < maxD) (visited2 : List String) :
    queueMeasure lookup maxD
        (((lookup pkg).filter (fun d => !decide (d ∈ visited2))).map (fun d => (d, depth + 1)))
      < work lookup (maxD - depth) pkg := by
  have hk : maxD - depth = (maxD - (depth + 1)) + 1 := by omega
  rw [hk]
  have h1 : queueMeasure lookup maxD
      (((lookup pkg).filter (fun d => !decide (d ∈ visited2))).map (fun d => (d, depth + 1)))
      = (((lookup pkg).filter (fun d => !decide (d ∈ visited2))).map
          (work lookup (maxD - (depth + 1)))).sum := by
    simp [queueMeasure, List.map_map]
    rfl
  rw [h1, work]
  have h2 := sum_map_filter_le (work lookup (maxD - (depth + 1)))
    (fun d => !decide (d ∈ visited2)) (lookup pkg)
  omega

/-- The BFS loop finishes (returns `some`) whenever the fuel is at least
`queueMeasure` of the current queue. -/
theorem bfsFuel_isSome (lookup : Lookup) (maxD : Nat) (filt : String) :
    ∀ n queue visited graph, queueMeasure lookup maxD queue ≤ n →
      ∃ g, bfsFuel lookup maxD filt n queue visited graph = some g := by
  intro n
  induction n with
  | zero =>
    intro queue visited graph h
    match queue with
    | [] => exact ⟨graph, rfl⟩
    | pd :: rest =>
      simp only [queueMeasure_cons] at h
      have := work_pos lookup (maxD - pd.2) pd.1
      omega
  | succ n ih =>
    intro queue visited graph h
    match queue with
    | [] => exact ⟨graph, rfl⟩
    | (pkg, depth) :: rest =>
      simp only [queueMeasure_cons] at h
      have hw := work_pos lookup (maxD - depth) pkg
      simp only [bfsFuel]
      split_ifs with h1 h2 h3 h4
      · exact ih rest visited graph (by omega)
      · exact ih rest visited graph (by omega)
      · exact ih rest (pkg :: visited) graph (by omega)
      · refine ih _ (pkg :: visited) _ ?_
        rw [queueMeasure_append]
        have := children_measure_lt lookup maxD pkg depth h4 (pkg :: visited)
        omega
      · exact ih rest (pkg :: visited) _ (by omega)

/-! ### Basic facts about the embedded dict operations. -/

theorem keysOf_dictInsert (m : List (String × List String)) (k : String)
    (v : List String) (x : String) :
    x ∈ keysOf (dictInsert m k v) ↔ x ∈ keysOf m ∨ x = k := by
  induction m with
  | nil => simp [dictInsert, keysOf, eq_comm]
  | cons e t ih =>
    obtain ⟨a, b⟩ := e
    by_cases h : a = k
    · subst h
      simp [dictInsert, keysOf, eq_comm]
      tauto
    · simp only [dictInsert, if_neg h, keysOf, List.map_cons, List.mem_cons]
      rw [show (List.map Prod.fst (dictInsert t k v)) = keysOf (dictInsert t k v) from rfl,
        show (List.map Prod.fst t) = keysOf t from rfl]
      rw [ih]
      tauto

theorem lookupG_dictInsert (m : List (String × List String)) (k : String)
    (v : List String) (x : String) :
    lookupG (dictInsert m k v) x = if k = x then v else lookupG m x := by
  induction m with
  | nil => simp [dictInsert, lookupG]
  | cons e t ih =>
    obtain ⟨a, b⟩ := e
    by_cases h : a = k
    · subst h
      by_cases hx : a = x <;> simp [dictInsert, lookupG, hx]
    · by_cases hx : a = x
      · subst hx
        have hk : k ≠ a := fun hh => h hh.symm
        simp [dictInsert, if_neg h, lookupG, hk]
      · simp [dictInsert, if_neg h, lookupG, hx, ih]

theorem dictInsert_notMem (m : List (String × List String)) (k : String)
    (v : List String) (h : k ∉ keysOf m) :
    dictInsert m k v = m ++ [(k, v)] := by
  induction m with
  | nil => simp [dictInsert]
  | cons e t ih =>
    obtain ⟨a, b⟩ := e
    simp only [keysOf, List.map_cons, List.mem_cons] at h
    push_neg at h
    have ha : a ≠ k := fun hh => h.1 hh.symm
    simp only [dictInsert, if_neg ha, List.cons_append, List.cons.injEq, true_and]
    exact ih h.2

theorem dictInsert_ne_nil (m : List (String × List String)) (k : String)
    (v : List String) : dictInsert m k v ≠ [] := by
  cases m with
  | nil => simp [dictInsert]
  | cons e t =>
    obtain ⟨a, b⟩ := e
    by_cases h : a = k <;> simp [dictInsert, h]

theorem dictInsert_headKey (m : List (String × List String)) (k : String)
    (v : List String) (h : m ≠ []) :
    (dictInsert m k v).head?.map Prod.fst = m.head?.map Prod.fst := by
  cases m with
  | nil => exact absurd rfl h
  | cons e t =>
    obtain ⟨a, b⟩ := e
    by_cases hk : a = k
    · subst hk
      simp [dictInsert]
    · simp [dictInsert, hk]

theorem lookupG_eq_nil_of_notMem (m : List (String × List String)) (k : String)
    (h : k ∉ keysOf m) : lookupG m k = [] := by
  induction m with
  | nil => rfl
  | cons e t ih =>
    obtain ⟨a, b⟩ := e
    simp only [keysOf, List.map_cons, List.mem_cons] at h
    push_neg at h
    have : a ≠ k := fun hh => h.1 hh.symm
    simp only [lookupG, if_neg this]
    exact ih h.2

/-! ### Invariants of the BFS loop. -/

/-- Depth-bound invariant: if every queue entry `(p, d)` is reachable in
exactly `d` edges and every recorded key is reachable within `maxD` edges,
then every key of the final graph is reachable within `maxD` edges. -/
theorem bfsFuel_keys_reach (lookup : Lookup) (maxD : Nat) (filt : String)
    (root : String) :
    ∀ n queue visited graph G,
      (∀ pd ∈ queue, ReachN lookup root pd.1 pd.2) →
      (∀ k ∈ keysOf graph, ∃ m, m ≤ maxD ∧ ReachN lookup root k m) →
      bfsFuel lookup maxD filt n queue visited graph = some G →
      ∀ k ∈ keysOf G, ∃ m, m ≤ maxD ∧ ReachN lookup root k m := by
  intro n
  induction n with
  | zero =>
    intro queue visited graph G hq hg hrun
    match queue with
    | [] =>
      simp only [bfsFuel, Option.some.injEq] at hrun
      exact hrun ▸ hg
    | pd :: rest => simp [bfsFuel] at hrun
  | succ n ih =>
    intro queue visited graph G hq hg hrun
    match queue with
    | [] =>
      simp only [bfsFuel, Option.some.injEq] at hrun
      exact hrun ▸ hg
    | (pkg, depth) :: rest =>
      have hqrest : ∀ pd ∈ rest, ReachN lookup root pd.1 pd.2 :=
        fun pd hpd => hq pd (List.mem_cons_of_mem _ hpd)
      have hqhead : ReachN lookup root pkg depth := hq (pkg, depth) (List.mem_cons_self _ _)
      simp only [bfsFuel] at hrun
      split_ifs at hrun with h1 h2 h3 h4
      · exact ih rest visited graph G hqrest hg hrun
      · exact ih rest visited graph G hqrest hg hrun
      · exact ih rest (pkg :: visited) graph G hqrest hg hrun
      · refine ih _ (pkg :: visited) _ G ?_ ?_ hrun
        · intro pd hpd
          rcases List.mem_append.mp hpd with hL | hR
          · exact hqrest pd hL
          · obtain ⟨d, hd, hEq⟩ := List.mem_map.mp hR
            subst hEq
            exact ReachN.step hqhead (List.mem_of_mem_filter hd)
        · intro k hk
          rcases (keysOf_dictInsert graph pkg (lookup pkg) k).mp hk with hk2 | hk2
          · exact hg k hk2
          · exact hk2 ▸ ⟨depth, by omega, hqhead⟩
      · refine ih rest (pkg :: visited) _ G hqrest ?_ hrun
        intro k hk
        rcases (keysOf_dictInsert graph pkg (lookup pkg) k).mp hk with hk2 | hk2
        · exact hg k hk2
        · exact hk2 ▸ ⟨depth, by omega, hqhead⟩

/-- No-duplicate-keys invariant: recorded keys are pairwise distinct,
because every recorded key is first placed in the visited set. -/
theorem bfsFuel_keys_nodup (lookup : Lookup) (maxD : Nat) (filt : String) :
    ∀ n queue visited graph G,
      (keysOf graph).Nodup →
      (∀ k ∈ keysOf graph, k ∈ visited) →
      bfsFuel lookup maxD filt n queue visited graph = some G →
      (keysOf G).Nodup := by
  intro n
  induction n with
  | zero =>
    intro queue visited graph G hnd hsub hrun
    match queue with
    | [] =>
      simp only [bfsFuel, Option.some.injEq] at hrun
      exact hrun ▸ hnd
    | pd :: rest => simp [bfsFuel] at hrun
  | succ n ih =>
    intro queue visited graph G hnd hsub hrun
    match queue with
    | [] =>
      simp only [bfsFuel, Option.some.injEq] at hrun
      exact hrun ▸ hnd
    | (pkg, depth) :: rest =>
      simp only [bfsFuel] at hrun
      have hsub2 : ∀ k ∈ keysOf graph, k ∈ pkg :: visited :=
        fun k hk => List.mem_cons_of_mem _ (hsub k hk)
      split_ifs at hrun with h1 h2 h3 h4
      · exact ih rest visited graph G hnd hsub hrun
      · exact ih rest visited graph G hnd hsub hrun
      · exact ih rest (pkg :: visited) graph G hnd hsub2 hrun
      all_goals {
        have hpk : pkg ∉ keysOf graph := fun hmem => h2 (hsub pkg hmem)
        have hins := dictInsert_notMem graph pkg (lookup pkg) hpk
        have hnd2 : (keysOf (dictInsert graph pkg (lookup pkg))).Nodup := by
          rw [hins]
          have : keysOf (graph ++ [(pkg, lookup pkg)]) = keysOf graph ++ [pkg] := by
            simp [keysOf]
          rw [this]
          refine List.nodup_append.mpr ⟨hnd, List.nodup_singleton _, ?_⟩
          intro a ha hb
          rw [List.mem_singleton] at hb
          exact hpk (hb ▸ ha)
        have hsub3 : ∀ k ∈ keysOf (dictInsert graph pkg (lookup pkg)), k ∈ pkg :: visited := by
          intro k hk
          rcases (keysOf_dictInsert graph pkg (lookup pkg) k).mp hk with hk2 | hk2
          · exact hsub2 k hk2
          · exact hk2 ▸ List.mem_cons_self _ _
        exact ih _ (pkg :: visited) _ G hnd2 hsub3 hrun
      }

/-- Filter invariant: with a non-empty filter, no recorded key contains the
filter as a substring. -/
theorem bfsFuel_keys_filtered (lookup : Lookup) (maxD : Nat) (filt : String)
    (hf : filt ≠ "") :
    ∀ n queue visited graph G,
      (∀ k ∈ keysOf graph, containsSub k filt = false) →
      bfsFuel lookup maxD filt n queue visited graph = some G →
      ∀ k ∈ keysOf G, containsSub k filt = false := by
  intro n
  induction n with
  | zero =>
    intro queue visited graph G hg hrun
    match queue with
    | [] =>
      simp only [bfsFuel, Option.some.injEq] at hrun
      exact hrun ▸ hg
    | pd :: rest => simp [bfsFuel] at hrun
  | succ n ih =>
    intro queue visited graph G hg hrun
    match queue with
    | [] =>
      simp only [bfsFuel, Option.some.injEq] at hrun
      exact hrun ▸ hg
    | (pkg, depth) :: rest =>
      simp only [bfsFuel] at hrun
      split_ifs at hrun with h1 h2 h3 h4
      · exact ih rest visited graph G hg hrun
      · exact ih rest visited graph G hg hrun
      · exact ih rest (pkg :: visited) graph G hg hrun
      all_goals {
        have hpkg : containsSub pkg filt = false := by
          rcases Bool.eq_false_or_eq_true (containsSub pkg filt) with hb | hb
          · exact absurd ⟨hf, hb⟩ h3
          · exact hb
        have hg2 : ∀ k ∈ keysOf (dictInsert graph pkg (lookup pkg)),
            containsSub k filt = false := by
          intro k hk
          rcases (keysOf_dictInsert graph pkg (lookup pkg) k).mp hk with hk2 | hk2
          · exact hg k hk2
          · exact hk2 ▸ hpkg
        exact ih _ (pkg :: visited) _ G hg2 hrun
      }

/-- Recorded-verbatim invariant: the value stored at every key of the final
graph is exactly what the lookup returned for that key. -/
theorem bfsFuel_keys_val (lookup : Lookup) (maxD : Nat) (filt : String) :
    ∀ n queue visited graph G,
      (∀ k ∈ keysOf graph, lookupG graph k = lookup k) →
      bfsFuel lookup maxD filt n queue visited graph = some G →
      ∀ k ∈ keysOf G, lookupG G k = lookup k := by
  intro n
  induction n with
  | zero =>
    intro queue visited graph G hg hrun
    match queue with
    | [] =>
      simp only [bfsFuel, Option.some.injEq] at hrun
      exact hrun ▸ hg
    | pd :: rest => simp [bfsFuel] at hrun
  | succ n ih =>
    intro queue visited graph G hg hrun
    match queue with
    | [] =>
      simp only [bfsFuel, Option.some.injEq] at hrun
      exact hrun ▸ hg
    | (pkg, depth) :: rest =>
      simp only [bfsFuel] at hrun
      split_ifs at hrun with h1 h2 h3 h4
      · exact ih rest visited graph G hg hrun
      · exact ih rest visited graph G hg hrun
      · exact ih rest (pkg :: visited) graph G hg hrun
      all_goals {
        have hg2 : ∀ k ∈ keysOf (dictInsert graph pkg (lookup pkg)),
            lookupG (dictInsert graph pkg (lookup pkg)) k = lookup k := by
          intro k hk
          rw [lookupG_dictInsert]
          by_cases he : pkg = k
          · subst he
            simp
          · rw [if_neg he]
            rcases (keysOf_dictInsert graph pkg (lookup pkg) k).mp hk with hk2 | hk2
            · exact hg k hk2
            · exact absurd hk2.symm he
        exact ih _ (pkg :: visited) _ G hg2 hrun
      }

/-- Head-key invariant: once the graph is non-empty, the loop never changes
its first key, and the graph stays non-empty. -/
theorem bfsFuel_headKey (lookup : Lookup) (maxD : Nat) (filt : String) :
    ∀ n queue visited graph G, graph ≠ [] →
      bfsFuel lookup maxD filt n queue visited graph = some G →
      G ≠ [] ∧ G.head?.map Prod.fst = graph.head?.map Prod.fst := by
  intro n
  induction n with
  | zero =>
    intro queue visited graph G hne hrun
    match queue with
    | [] =>
      simp only [bfsFuel, Option.some.injEq] at hrun
      exact hrun ▸ ⟨hne, rfl⟩
    | pd :: rest => simp [bfsFuel] at hrun
  | succ n ih =>
    intro queue visited graph G hne hrun
    match queue with
    | [] =>
      simp only [bfsFuel, Option.some.injEq] at hrun
      exact hrun ▸ ⟨hne, rfl⟩
    | (pkg, depth) :: rest =>
      simp only [bfsFuel] at hrun
      split_ifs at hrun with h1 h2 h3 h4
      · exact ih rest visited graph G hne hrun
      · exact ih rest visited graph G hne hrun
      · exact ih rest (pkg :: visited) graph G hne hrun
      all_goals {
        have hne2 := dictInsert_ne_nil graph pkg (lookup pkg)
        have hhd := dictInsert_headKey graph pkg (lookup pkg) hne
        obtain ⟨hG, hGhd⟩ := ih _ (pkg :: visited) _ G hne2 hrun
        exact ⟨hG, hGhd.trans hhd⟩
      }

/-! ### The Reverse Graph Builder (`get_reverse_dependencies`). -/

theorem lookupG_revAppend (rg : List (String × List String)) (d pkg x : String) :
    lookupG (revAppend rg d pkg) x =
      if d = x then lookupG rg x ++ [pkg] else lookupG rg x := by
  induction rg with
  | nil =>
    by_cases h : d = x <;> simp [revAppend, lookupG, h]
  | cons e t ih =>
    obtain ⟨k, l⟩ := e
    by_cases hk : k = d
    · subst hk
      by_cases hx : k = x
      · subst hx
        simp [revAppend, lookupG]
      · have : k ≠ x := hx
        simp [revAppend, lookupG, this, fun hh : k = x => hx hh]
    · by_cases hx : k = x
      · subst hx
        have hd : d ≠ k := fun hh => hk hh.symm
        simp [revAppend, if_neg hk, lookupG, hd]
      · simp [revAppend, if_neg hk, lookupG, hx, ih]

theorem keysOf_revAppend (rg : List (String × List String)) (d pkg x : String) :
    x ∈ keysOf (revAppend rg d pkg) ↔ x ∈ keysOf rg ∨ x = d := by
  induction rg with
  | nil => simp [revAppend, keysOf]
  | cons e t ih =>
    obtain ⟨k, l⟩ := e
    by_cases hk : k = d
    · subst hk
      simp [revAppend, keysOf]
      tauto
    · simp only [revAppend, if_neg hk, keysOf, List.map_cons, List.mem_cons]
      rw [show List.map Prod.fst (revAppend t d pkg) = keysOf (revAppend t d pkg) from rfl,
        show List.map Prod.fst t = keysOf t from rfl]
      rw [ih]
      tauto

theorem mem_lookupG_innerFold (deps : List String) (pkg A x : String) :
    ∀ rg, A ∈ lookupG (deps.foldl (fun rg2 d => revAppend rg2 d pkg) rg) x ↔
      A ∈ lookupG rg x ∨ (x ∈ deps ∧ A = pkg) := by
  induction deps with
  | nil => simp
  | cons d t ih =>
    intro rg
    simp only [List.foldl_cons]
    rw [ih (revAppend rg d pkg), lookupG_revAppend]
    by_cases hd : d = x
    · subst hd
      simp [List.mem_append]
      tauto
    · have hxd : x ∈ d :: t ↔ x ∈ t := by
        simp [List.mem_cons]
        intro hh
        exact absurd hh.symm hd
      rw [if_neg hd, hxd]

theorem keysOf_innerFold (deps : List String) (pkg x : String) :
    ∀ rg, x ∈ keysOf (deps.foldl (fun rg2 d => revAppend rg2 d pkg) rg) ↔
      x ∈ keysOf rg ∨ x ∈ deps := by
  induction deps with
  | nil => simp
  | cons d t ih =>
    intro rg
    simp only [List.foldl_cons]
    rw [ih (revAppend rg d pkg), keysOf_revAppend, List.mem_cons]
    tauto

theorem mem_lookupG_outerFold (A B : String) :
    ∀ (g : List (String × List String)) rg,
      A ∈ lookupG
          (g.foldl (fun rgg pd => pd.2.foldl (fun rg2 d => revAppend rg2 d pd.1) rgg) rg) B ↔
        A ∈ lookupG rg B ∨ ∃ pd ∈ g, pd.1 = A ∧ B ∈ pd.2 := by
  intro g
  induction g with
  | nil => simp
  | cons e t ih =>
    intro rg
    obtain ⟨p, deps⟩ := e
    simp only [List.foldl_cons]
    rw [ih, mem_lookupG_innerFold]
    simp only [List.mem_cons]
    constructor
    · rintro (⟨h | ⟨hB, hA⟩⟩ | ⟨pd, hpd, hfst, hB⟩)
      · exact Or.inl h
      · exact Or.inr ⟨(p, deps), Or.inl rfl, hA.symm, hB⟩
      · exact Or.inr ⟨pd, Or.inr hpd, hfst, hB⟩
    · rintro (h | ⟨pd, hpd | hpd, hfst, hB⟩)
      · exact Or.inl (Or.inl h)
      · subst hpd
        exact Or.inl (Or.inr ⟨hB, hfst.symm⟩)
      · exact Or.inr ⟨pd, hpd, hfst, hB⟩

theorem keysOf_outerFold (x : String) :
    ∀ (g : List (String × List String)) rg,
      x ∈ keysOf
          (g.foldl (fun rgg pd => pd.2.foldl (fun rg2 d => revAppend rg2 d pd.1) rgg) rg) ↔
        x ∈ keysOf rg ∨ ∃ pd ∈ g, x ∈ pd.2 := by
  intro g
  induction g with
  | nil => simp
  | cons e t ih =>
    intro rg
    obtain ⟨p, deps⟩ := e
    simp only [List.foldl_cons]
    rw [ih, keysOf_innerFold]
    simp only [List.mem_cons]
    constructor
    · rintro (⟨h | h⟩ | ⟨pd, hpd, hx⟩)
      · exact Or.inl h
      · exact Or.inr ⟨(p, deps), Or.inl rfl, h⟩
      · exact Or.inr ⟨pd, Or.inr hpd, hx⟩
    · rintro (h | ⟨pd, hpd | hpd, hx⟩)
      · exact Or.inl (Or.inl h)
      · subst hpd
        exact Or.inl (Or.inr hx)
      · exact Or.inr ⟨pd, hpd, hx⟩

/-- Membership characterization of the reverse graph: `A` is recorded as a
dependent of `B` exactly when some forward entry of `A` lists `B`. -/
theorem mem_reverse_iff (g : List (String × List String)) (A B : String) :
    A ∈ lookupG (get_reverse_dependencies g) B ↔ ∃ pd ∈ g, pd.1 = A ∧ B ∈ pd.2 := by
  rw [get_reverse_dependencies, mem_lookupG_outerFold]
  simp [lookupG]

/-- Key characterization of the reverse graph: exactly the names occurring
inside some forward dependency list get an entry. -/
theorem keysOf_reverse_iff (g : List (String × List String)) (x : String) :
    x ∈ keysOf (get_reverse_dependencies g) ↔ ∃ pd ∈ g, x ∈ pd.2 := by
  rw [get_reverse_dependencies, keysOf_outerFold]
  simp [keysOf]

theorem mem_lookupG_exists (m : List (String × List String)) (a b : String)
    (h : b ∈ lookupG m a) : ∃ pd ∈ m, pd.1 = a ∧ b ∈ pd.2 := by
  induction m with
  | nil => simp [lookupG] at h
  | cons e t ih =>
    obtain ⟨x, l⟩ := e
    by_cases hx : x = a
    · subst hx
      simp only [lookupG, if_pos rfl] at h
      exact ⟨(x, l), by simp, rfl, h⟩
    · simp only [lookupG, if_neg hx] at h
      obtain ⟨pd, hmem, hfst, hb⟩ := ih h
      exact ⟨pd, by simp [hmem], hfst, hb⟩

theorem lookupG_of_mem_nodup (m : List (String × List String)) (a : String)
    (l : List String) (hmem : (a, l) ∈ m) (hnd : (keysOf m).Nodup) :
    lookupG m a = l := by
  induction m with
  | nil => simp at hmem
  | cons e t ih =>
    obtain ⟨x, v⟩ := e
    simp only [keysOf, List.map_cons, List.nodup_cons] at hnd
    rcases List.mem_cons.mp hmem with h | h
    · have hx : a = x := by
        have := congrArg Prod.fst h
        simpa using this
      have hv : l = v := by
        have := congrArg Prod.snd h
        simpa using this
      subst hx
      simp [lookupG, hv]
    · by_cases hx : x = a
      · subst hx
        exfalso
        exact hnd.1 (List.mem_map.mpr ⟨(x, l), h, rfl⟩)
      · simp only [lookupG, if_neg hx]
        exact ih h hnd.2


/-! ### Bridge lemmas. -/

theorem bfsFuel_nil (lookup : Lookup) (maxD : Nat) (filt : String) :
    ∀ n visited graph, bfsFuel lookup maxD filt n [] visited graph = some graph := by
  intro n visited graph
  cases n <;> rfl

/-- The canonical fuel `queueMeasure` makes the loop return exactly the
graph delivered by `get_all_dependencies_bfs`. -/
theorem get_all_eq_run (lookup : Lookup) (root : String) (maxD : Nat) (filt : String) :
    bfsFuel lookup maxD filt (queueMeasure lookup maxD [(root, 0)]) [(root, 0)] [] []
      = some (get_all_dependencies_bfs lookup root maxD filt) := by
  obtain ⟨g, hg⟩ := bfsFuel_isSome lookup maxD filt
    (queueMeasure lookup maxD [(root, 0)]) [(root, 0)] [] [] le_rfl
  simp [get_all_dependencies_bfs, hg]

theorem dot_foldl_append (g : List (String × List String)) :
    ∀ init : List String,
      g.foldl (fun ls pd =>
        let ls2 := ls ++ pd.2.map (fun dep => dotEdgeLine pd.1 dep)
        if pd.2.isEmpty then ls2 ++ [dotNodeLine pd.1] else ls2) init
      = init ++ (g.map (fun pd =>
          pd.2.map (fun dep => dotEdgeLine pd.1 dep) ++
          (if pd.2.isEmpty then [dotNodeLine pd.1] else []))).flatten := by
  induction g with
  | nil => simp
  | cons e t ih =>
    intro init
    simp only [List.foldl_cons, List.map_cons, List.flatten_cons]
    rw [ih]
    by_cases h : e.2.isEmpty <;> simp [h, List.append_assoc]

/-! ### The claims. -/

/-- C1: every key of the Forward Graph returned by the Graph Builder is
reachable from the root via a path of at most `maxDepth` edges through
lookup-returned dependencies (so no name reachable only via longer paths
becomes a key), and with lookup `A→[B,C], B→[C], C→[]` and `maxDepth = 0`
the result is exactly `{A: [B, C]}`. -/
theorem bfs_depth_bound :
    (∀ (lookup : Lookup) (root : String) (maxD : Nat) (filt : String) (k : String),
      k ∈ keysOf (get_all_dependencies_bfs lookup root maxD filt) →
      ∃ m, m ≤ maxD ∧ ReachN lookup root k m) ∧
    get_all_dependencies_bfs lookupABC "A" 0 "" = [("A", ["B", "C"])] := by
  constructor
  · intro lookup root maxD filt k hk
    refine bfsFuel_keys_reach lookup maxD filt root
      (queueMeasure lookup maxD [(root, 0)]) [(root, 0)] [] []
      (get_all_dependencies_bfs lookup root maxD filt) ?_ ?_
      (get_all_eq_run lookup root maxD filt) k hk
    · intro pd hpd
      rw [List.mem_singleton] at hpd
      subst hpd
      exact ReachN.refl
    · intro k2 hk2
      simp [keysOf] at hk2
  · decide

/-- Witness for C1 at a concrete input: `B` is a key of the graph built
from the scenario lookup with `maxDepth = 1`, and the theorem yields a
path of at most one edge from `A` to `B`. -/
theorem bfs_depth_bound_witness :
    "B" ∈ keysOf (get_all_dependencies_bfs lookupABC "A" 1 "") ∧
    ∃ m, m ≤ 1 ∧ ReachN lookupABC "A" "B" m :=
  ⟨by decide, bfs_depth_bound.1 lookupABC "A" 1 "" "B" (by decide)⟩

/-- C2: the BFS loop terminates on every input — fuel `queueMeasure`
always suffices and produces the graph of the builder — each name becomes a key
at most once (the key list has no duplicates), and the cyclic scenario
lookup `A→[B], B→[A]` with root `A` and `maxDepth = 5` yields exactly
`{A: [B], B: [A]}`. -/
theorem bfs_terminates :
    (∀ (lookup : Lookup) (root : String) (maxD : Nat) (filt : String),
      ∃ g, bfsFuel lookup maxD filt (queueMeasure lookup maxD [(root, 0)]) [(root, 0)] [] []
          = some g ∧
        get_all_dependencies_bfs lookup root maxD filt = g) ∧
    (∀ (lookup : Lookup) (root : String) (maxD : Nat) (filt : String),
      (keysOf (get_all_dependencies_bfs lookup root maxD filt)).Nodup) ∧
    get_all_dependencies_bfs lookupAB "A" 5 "" = [("A", ["B"]), ("B", ["A"])] := by
  refine ⟨?_, ?_, by decide⟩
  · intro lookup root maxD filt
    exact ⟨get_all_dependencies_bfs lookup root maxD filt,
      get_all_eq_run lookup root maxD filt, rfl⟩
  · intro lookup root maxD filt
    refine bfsFuel_keys_nodup lookup maxD filt
      (queueMeasure lookup maxD [(root, 0)]) [(root, 0)] [] []
      (get_all_dependencies_bfs lookup root maxD filt) ?_ ?_
      (get_all_eq_run lookup root maxD filt)
    · simp [keysOf]
    · intro k hk
      simp [keysOf] at hk

/-- C3: with a non-empty filter substring no key of the resulting graph
contains the filter as a substring, while excluded names still appear
verbatim inside the recorded lists of other keys: with lookup
`A→[B,C], B→[C], C→[]` and filter `"C"` the result is exactly
`{A: [B, C], B: [C]}`. -/
theorem bfs_filter_exclusion :
    (∀ (lookup : Lookup) (root : String) (maxD : Nat) (filt : String) (k : String),
      filt ≠ "" → k ∈ keysOf (get_all_dependencies_bfs lookup root maxD filt) →
      containsSub k filt = false) ∧
    get_all_dependencies_bfs lookupABC "A" 2 "C" = [("A", ["B", "C"]), ("B", ["C"])] := by
  constructor
  · intro lookup root maxD filt k hf hk
    refine bfsFuel_keys_filtered lookup maxD filt hf
      (queueMeasure lookup maxD [(root, 0)]) [(root, 0)] [] []
      (get_all_dependencies_bfs lookup root maxD filt) ?_
      (get_all_eq_run lookup root maxD filt) k hk
    intro k2 hk2
    simp [keysOf] at hk2
  · decide

/-- Witness for C3 at a concrete input: with filter `"C"`, the key `B` of
the scenario result does not contain `"C"`. -/
theorem bfs_filter_exclusion_witness :
    ("C" : String) ≠ "" ∧
    "B" ∈ keysOf (get_all_dependencies_bfs lookupABC "A" 2 "C") ∧
    containsSub "B" "C" = false :=
  ⟨by decide, by decide, bfs_filter_exclusion.1 lookupABC "A" 2 "C" "B" (by decide) (by decide)⟩

/-- C4: for a Forward Graph with unique keys (as the builder produces),
`B ∈ ForwardGraph[A]` iff `A ∈ ReverseGraph[B]`. -/
theorem reverse_correctness (g : List (String × List String))
    (hnd : (keysOf g).Nodup) (A B : String) :
    B ∈ lookupG g A ↔ A ∈ lookupG (get_reverse_dependencies g) B := by
  rw [mem_reverse_iff]
  constructor
  · intro h
    exact mem_lookupG_exists g A B h
  · rintro ⟨pd, hpd, hfst, hb⟩
    obtain ⟨p, l⟩ := pd
    simp only at hfst
    subst hfst
    rw [lookupG_of_mem_nodup g p l hpd hnd]
    exact hb

/-- Witness for C4 at a concrete input. -/
theorem reverse_correctness_witness :
    (keysOf [("A", ["B"])]).Nodup ∧
    ("B" ∈ lookupG [("A", ["B"])] "A" ↔
      "A" ∈ lookupG (get_reverse_dependencies [("A", ["B"])]) "B") :=
  ⟨by decide, reverse_correctness [("A", ["B"])] (by decide) "A" "B"⟩

/-- C5 counterexample: for the Forward Graph `{root: []}` the computed
reverse graph is empty — the key `root` gets no reverse entry. -/
theorem reverse_missing_key_cex :
    get_reverse_dependencies [("root", [])] = [] ∧
    "root" ∉ keysOf (get_reverse_dependencies [("root", [])]) := by
  constructor
  · rfl
  · decide

/-- C5 amended: exactly the names occurring inside some dependency list of
the Forward Graph get an entry in the Reverse Graph; a forward key whose
list is empty (and which no list mentions) gets none, and for
`{root: []}` the reverse graph is `{}`. -/
theorem reverse_entries_amended :
    (∀ (g : List (String × List String)) (x : String),
      x ∈ keysOf (get_reverse_dependencies g) ↔ ∃ pd ∈ g, x ∈ pd.2) ∧
    get_reverse_dependencies [("root", [])] = [] :=
  ⟨fun g x => keysOf_reverse_iff g x, rfl⟩

theorem tree_cycle_none : ∀ (n : Nat) (pre : String),
    print_ascii_tree_fuel [("A", ["B"]), ("B", ["A"])] n "A" pre = none ∧
    print_ascii_tree_fuel [("A", ["B"]), ("B", ["A"])] n "B" pre = none := by
  intro n
  induction n with
  | zero =>
    intro pre
    constructor <;> simp [print_ascii_tree_fuel]
  | succ n ih =>
    intro pre
    constructor
    · simp only [print_ascii_tree_fuel]
      have h1 : lookupG [("A", ["B"]), ("B", ["A"])] "A" = ["B"] := rfl
      rw [h1]
      have h2 : childArgs pre ["B"] = [("B", pre ++ "   " ++ "└─ ")] := rfl
      rw [h2]
      simp only [print_ascii_tree_children]
      rw [(ih (pre ++ "   " ++ "└─ ")).2]
    · simp only [print_ascii_tree_fuel]
      have h1 : lookupG [("A", ["B"]), ("B", ["A"])] "B" = ["A"] := rfl
      rw [h1]
      have h2 : childArgs pre ["A"] = [("A", pre ++ "   " ++ "└─ ")] := rfl
      rw [h2]
      simp only [print_ascii_tree_children]
      rw [(ih (pre ++ "   " ++ "└─ ")).1]

/-- C6: the Graph Builder delivers the cyclic graph `{A:[B], B:[A]}`
(cycle scenario), and on it the unguarded recursive tree walk never
completes: for every recursion-depth budget the walk exhausts it. -/
theorem print_ascii_tree_nonterminating :
    get_all_dependencies_bfs lookupAB "A" 5 "" = [("A", ["B"]), ("B", ["A"])] ∧
    ∀ n : Nat, print_ascii_tree_fuel [("A", ["B"]), ("B", ["A"])] n "A" "" = none :=
  ⟨by decide, fun n => (tree_cycle_none n "").1⟩

/-- C7 counterexample: a run whose only failure is the render step (layout
tool absent) reports the error but exits with status 0, not non-zero. -/
theorem main_render_failure_exits_zero :
    mainExitCode 100 (Except.ok cfgEx) (Except.ok dmapEx) RenderOutcome.toolMissing = 0 ∧
    mainRun 100 (Except.ok cfgEx) (Except.ok dmapEx) RenderOutcome.toolMissing =
      Except.ok ["Ошибка: Graphviz не установлен или не найден \x27dot\x27"] := by
  constructor
  · rfl
  · rfl

/-- C7 amended: configuration and lookup failures make the process exit
with status 1; render failures (tool absent or exiting non-zero) are only
reported by `save_graph_svg` and the process exits 0. -/
theorem main_exit_amended :
    (∀ (recLimit : Nat) (msg : String) (idx : Except String (List (String × List String)))
        (render : RenderOutcome),
      mainExitCode recLimit (Except.error msg) idx render = 1) ∧
    (∀ (recLimit : Nat) (cfg : Config) (msg : String) (render : RenderOutcome),
      mainExitCode recLimit (Except.ok cfg) (Except.error msg) render = 1) ∧
    (∀ (recLimit : Nat) (cfg : Config) (dmap : List (String × List String))
        (render : RenderOutcome),
      cfg.ascii_mode = false →
      mainExitCode recLimit (Except.ok cfg) (Except.ok dmap) render = 0 ∧
      mainRun recLimit (Except.ok cfg) (Except.ok dmap) render = Except.ok
        (save_graph_svg render
          (generate_dot (get_all_dependencies_bfs (fun p => lookupG dmap p)
            cfg.package_name cfg.max_depth cfg.filter_substring))
          cfg.output_file)) := by
  refine ⟨?_, ?_, ?_⟩
  · intro recLimit msg idx render
    rfl
  · intro recLimit cfg msg render
    rfl
  · intro recLimit cfg dmap render h
    obtain ⟨pn, rm, rp, of, am, md, fs⟩ := cfg
    simp only at h
    subst h
    exact ⟨rfl, rfl⟩

/-- Witness for the amended C7 claim at a concrete input. -/
theorem main_exit_amended_witness :
    cfgEx.ascii_mode = false ∧
    mainExitCode 7 (Except.ok cfgEx) (Except.ok dmapEx) RenderOutcome.success = 0 :=
  ⟨rfl, (main_exit_amended.2.2 7 cfgEx dmapEx RenderOutcome.success rfl).1⟩

/-- C8: the exporter output is exactly one header line, then one
directed-edge statement per (package, dependency) pair in iteration order
(one per occurrence, duplicates included), one isolated-node statement per
key with an empty list, then one footer line, names embedded as quoted
literals; with a concrete instance showing duplicate edges and an
isolated node. -/
theorem generate_dot_structure :
    (∀ g : List (String × List String),
      generate_dot g = String.intercalate "\n"
        (["digraph G \x7b"] ++
         (g.map (fun pd =>
            pd.2.map (fun dep => dotEdgeLine pd.1 dep) ++
            (if pd.2.isEmpty then [dotNodeLine pd.1] else []))).flatten ++
         ["\x7d"])) ∧
    generate_dot [("A", ["B", "B"]), ("C", [])] =
      "digraph G \x7b\n    \"A\" -> \"B\";\n    \"A\" -> \"B\";\n    \"C\";\n\x7d" := by
  constructor
  · intro g
    simp only [generate_dot]
    rw [dot_foldl_append]
  · rfl

/-- C9: the list recorded for every key is exactly what the lookup
returned (so an empty lookup result is recorded as an empty list, distinct
from absence), the test-mode lookup returns `[]` — not an error — for a
package unknown to the parsed index, and a root whose lookup returns `[]`
yields the Forward Graph `{root: []}`. -/
theorem empty_deps_handling :
    (∀ (lines : List String) (pkg : String) (m : List (String × List String)),
      buildDepMap lines = Except.ok m → pkg ∉ keysOf m →
      parse_apk_index_test lines pkg = Except.ok []) ∧
    (∀ (lookup : Lookup) (root : String) (maxD : Nat) (filt : String) (k : String),
      k ∈ keysOf (get_all_dependencies_bfs lookup root maxD filt) →
      lookupG (get_all_dependencies_bfs lookup root maxD filt) k = lookup k) ∧
    (∀ (lookup : Lookup) (root : String) (maxD : Nat),
      lookup root = [] →
      get_all_dependencies_bfs lookup root maxD "" = [(root, [])]) := by
  refine ⟨?_, ?_, ?_⟩
  · intro lines pkg m hm hk
    rw [parse_apk_index_test, hm, Except.map]
    rw [lookupG_eq_nil_of_notMem m pkg hk]
  · intro lookup root maxD filt k hk
    refine bfsFuel_keys_val lookup maxD filt
      (queueMeasure lookup maxD [(root, 0)]) [(root, 0)] [] []
      (get_all_dependencies_bfs lookup root maxD filt) ?_
      (get_all_eq_run lookup root maxD filt) k hk
    intro k2 hk2
    simp [keysOf] at hk2
  · intro lookup root maxD h
    have hw : work lookup maxD root = 1 := by
      cases maxD with
      | zero => rfl
      | succ k => simp [work, h]
    have hq : queueMeasure lookup maxD [(root, 0)] = 1 := by
      simp [queueMeasure, hw]
    rw [get_all_dependencies_bfs, hq]
    by_cases hm : 0 < maxD <;>
      simp [bfsFuel, h, dictInsert, hm, bfsFuel_nil]

/-- Witness for C9 at concrete inputs: a two-line test index where the
unknown package `Q` parses to `ok []`, a key of the scenario graph whose
recorded list equals its lookup result, and a root with empty lookup
giving `{root: []}`. -/
theorem empty_deps_handling_witness :
    buildDepMap ["A: B C", "X:"] = Except.ok [("A", ["B", "C"]), ("X", [])] ∧
    "Q" ∉ keysOf [("A", ["B", "C"]), ("X", [])] ∧
    parse_apk_index_test ["A: B C", "X:"] "Q" = Except.ok [] ∧
    "B" ∈ keysOf (get_all_dependencies_bfs lookupABC "A" 2 "") ∧
    lookupG (get_all_dependencies_bfs lookupABC "A" 2 "") "B" = lookupABC "B" ∧
    get_all_dependencies_bfs (fun _ => []) "r" 4 "" = [("r", [])] :=
  ⟨rfl, by decide,
    empty_deps_handling.1 ["A: B C", "X:"] "Q" [("A", ["B", "C"]), ("X", [])] rfl (by decide),
    by decide,
    empty_deps_handling.2.1 lookupABC "A" 2 "" "B" (by decide),
    empty_deps_handling.2.2 (fun _ => []) "r" 4 rfl⟩

/-- C10: when the non-empty filter matches the root itself the builder
returns a completely empty Forward Graph, and whenever the returned graph
is non-empty its first key is the root. -/
theorem bfs_root_constraints :
    (∀ (lookup : Lookup) (root : String) (maxD : Nat) (filt : String),
      filt ≠ "" → containsSub root filt = true →
      get_all_dependencies_bfs lookup root maxD filt = []) ∧
    (∀ (lookup : Lookup) (root : String) (maxD : Nat) (filt : String),
      get_all_dependencies_bfs lookup root maxD filt ≠ [] →
      (get_all_dependencies_bfs lookup root maxD filt).head?.map Prod.fst = some root) := by
  have hq : ∀ (lookup : Lookup) (maxD : Nat) (root : String),
      queueMeasure lookup maxD [(root, 0)] = work lookup maxD root := by
    intro lookup maxD root
    simp [queueMeasure]
  constructor
  · intro lookup root maxD filt hf hc
    obtain ⟨m, hm⟩ : ∃ m, work lookup maxD root = m + 1 := by
      have := work_pos lookup maxD root
      exact ⟨work lookup maxD root - 1, by omega⟩
    rw [get_all_dependencies_bfs, hq, hm]
    simp only [bfsFuel]
    rw [if_neg (by omega : ¬ maxD < 0), if_neg (by simp : ¬ root ∈ ([] : List String)),
      if_pos ⟨hf, hc⟩]
    rfl
  · intro lookup root maxD filt hne
    obtain ⟨m, hm⟩ : ∃ m, work lookup maxD root = m + 1 := by
      have := work_pos lookup maxD root
      exact ⟨work lookup maxD root - 1, by omega⟩
    have hrun := get_all_eq_run lookup root maxD filt
    rw [hq, hm] at hrun
    simp only [bfsFuel] at hrun
    rw [if_neg (by omega : ¬ maxD < 0),
      if_neg (by simp : ¬ root ∈ ([] : List String))] at hrun
    by_cases hfc : filt ≠ "" ∧ containsSub root filt = true
    · rw [if_pos hfc] at hrun
      have : get_all_dependencies_bfs lookup root maxD filt = [] := by
        injection hrun with hk
        exact hk.symm
      exact absurd this hne
    · rw [if_neg hfc] at hrun
      have hne2 : dictInsert [] root (lookup root) ≠ [] := dictInsert_ne_nil _ _ _
      by_cases hd : (0 : Nat) < maxD
      · rw [if_pos hd] at hrun
        obtain ⟨hG, hhd⟩ := bfsFuel_headKey lookup maxD filt m _ _ _ _ hne2 hrun
        rw [hhd]
        rfl
      · rw [if_neg hd] at hrun
        injection hrun with hk
        rw [← hk]
        rfl

/-- Witness for C10 at concrete inputs: the filter `"oo"` matches the root
`"foo"` and empties the graph; the scenario graph is non-empty and its
first key is its root `A`. -/
theorem bfs_root_constraints_witness :
    ("oo" : String) ≠ "" ∧ containsSub "foo" "oo" = true ∧
    get_all_dependencies_bfs lookupABC "foo" 3 "oo" = [] ∧
    get_all_dependencies_bfs lookupABC "A" 2 "" ≠ [] ∧
    (get_all_dependencies_bfs lookupABC "A" 2 "").head?.map Prod.fst = some "A" :=
  ⟨by decide, by decide,
    bfs_root_constraints.1 lookupABC "foo" 3 "oo" (by decide) (by decide),
    by decide,
    bfs_root_constraints.2 lookupABC "A" 2 "" (by decide)⟩
